import Mathlib

/-!
# Budget allocation redistribution (`public/js/budget.js`)

A shallow embedding of `adjustAllocations`, `normalizeTo100` and
`handleLegendInput` from `public/js/budget.js`.

Numbers.  JavaScript numbers are modelled with exact rational arithmetic plus
the value `NaN`; the two infinities are not represented.  The only division by
zero the source can perform is the unused `equalShare` of a one-element group.
The decimal literals `0.001` and `0.005` are the rationals `1/1000`, `5/1000`.

State.  `currentNodes` is modelled by the list of the `budget_allocation`
fields, each one as the number `parseFloat` reads from it.  A store
`x.toFixed(2)` is therefore modelled by the number that `parseFloat` reads back
from the stored string.  The other fields of a node are never touched by the
functions embedded here.
-/

namespace Budget

/-! ## JavaScript numbers -/

/-- A JavaScript number under exact arithmetic: `nan` or a rational. -/
inductive JSNum where
  | nan : JSNum
  | num (q : ℚ) : JSNum
deriving DecidableEq

namespace JSNum

/-- JavaScript `a + b`. -/
def add : JSNum → JSNum → JSNum
  | num a, num b => num (a + b)
  | _, _ => nan

/-- JavaScript `a - b`. -/
def sub : JSNum → JSNum → JSNum
  | num a, num b => num (a - b)
  | _, _ => nan

/-- JavaScript `a * b`. -/
def mul : JSNum → JSNum → JSNum
  | num a, num b => num (a * b)
  | _, _ => nan

/-- JavaScript `a / b`; a zero divisor (an infinity or NaN in JavaScript) is `nan`. -/
def div : JSNum → JSNum → JSNum
  | num a, num b => if b = 0 then nan else num (a / b)
  | _, _ => nan

instance : Add JSNum := ⟨add⟩
instance : Sub JSNum := ⟨sub⟩
instance : Mul JSNum := ⟨mul⟩
instance : Div JSNum := ⟨div⟩

/-- JavaScript `a < b`: false as soon as one side is NaN. -/
def lt : JSNum → JSNum → Bool
  | num a, num b => decide (a < b)
  | _, _ => false

/-- JavaScript `a <= b`: false as soon as one side is NaN. -/
def le : JSNum → JSNum → Bool
  | num a, num b => decide (a ≤ b)
  | _, _ => false

/-- JavaScript `a > b`: false as soon as one side is NaN. -/
def gt : JSNum → JSNum → Bool
  | num a, num b => decide (b < a)
  | _, _ => false

/-- JavaScript `Math.abs(a)`. -/
def mathAbs : JSNum → JSNum
  | num a => num |a|
  | nan => nan

/-- JavaScript `Math.max(a, b)`: NaN as soon as one argument is NaN. -/
def mathMax : JSNum → JSNum → JSNum
  | num a, num b => num (max a b)
  | _, _ => nan

/-- JavaScript `Math.min(a, b)`: NaN as soon as one argument is NaN. -/
def mathMin : JSNum → JSNum → JSNum
  | num a, num b => num (min a b)
  | _, _ => nan

end JSNum

open JSNum

/-- The number read back from `x.toFixed(2)` for `0 ≤ x`: below `10^21` the
integer `n` with `n / 100` closest to `x`, the larger one on a tie, over `100`;
from `10^21` on `toFixed` prints the number itself. -/
def toFixed2Pos (x : ℚ) : ℚ :=
  if (10 : ℚ) ^ 21 ≤ x then x else (⌊x * 100 + 1 / 2⌋ : ℤ) / 100

/-- The number read back from `x.toFixed(2)`: a negative `x` is printed as the
sign followed by the digits of `-x`. -/
def toFixed2Q (x : ℚ) : ℚ :=
  if x < 0 then -toFixed2Pos (-x) else toFixed2Pos x

/-- The number `parseFloat` reads from the string `a.toFixed(2)`;
`NaN.toFixed(2)` is the string `"NaN"`, read back as NaN. -/
def toFixed2 : JSNum → JSNum
  | num a => num (toFixed2Q a)
  | nan => nan

/-! ## The sibling group -/

/-- The `budget_allocation` values of `currentNodes`, as `parseFloat` reads them. -/
abbrev Group := List JSNum

/-- The loop `for (let i = 0; i < n; i++) body`. -/
def forRange (n : ℕ) (body : ℕ → Group → Group) (nodes : Group) : Group :=
  (List.range n).foldl (fun acc i => body i acc) nodes

/-- The function `normalizeTo100(fixedIndex)`, lines 381-402. -/
def normalizeTo100 (currentNodes : Group) (fixedIndex : ℕ) : Group :=
  let sum := currentNodes.foldl (fun s n => s + n) (num 0)
  let drift := sum - num 100
  if lt (mathAbs drift) (num (5 / 1000)) then currentNodes
  else
    let adjustable := (currentNodes.enum).filter
      (fun x => decide (x.1 ≠ fixedIndex) && gt x.2 (num 0))
    if adjustable.length = 0 then currentNodes
    else
      let adjustSum := adjustable.foldl (fun s x => s + x.2) (num 0)
      adjustable.foldl (fun nodes item =>
        let share := item.2 / adjustSum
        let fix := drift * share
        let newVal := mathMax (num 0) (item.2 - fix)
        nodes.set item.1 (toFixed2 newVal)) currentNodes

/-- The function `adjustAllocations(changedIndex, newValue)`, lines 346-379.
The result is `none` when reading `currentNodes[changedIndex].budget_allocation`
throws, which happens before any store. -/
def adjustAllocations (currentNodes : Group) (changedIndex : ℕ) (newValue : JSNum) :
    Option Group :=
  let newValue := mathMax (num 0) (mathMin (num 100) newValue)
  match currentNodes[changedIndex]? with
  | none => none
  | some oldVal =>
    let diff := newValue - oldVal
    let sumOthers := num 100 - oldVal
    if lt (mathAbs diff) (num (1 / 1000)) then some currentNodes
    else
      let nodes1 :=
        if le sumOthers (num 0) then
          let equalShare := (num 100 - newValue) / num ((currentNodes.length : ℚ) - 1)
          forRange currentNodes.length (fun i nodes =>
            if i ≠ changedIndex then nodes.set i (toFixed2 (mathMax (num 0) equalShare))
            else nodes) currentNodes
        else
          forRange currentNodes.length (fun i nodes =>
            if i ≠ changedIndex then
              let currentVal := nodes.getD i nan
              let proportion := currentVal / sumOthers
              let adjusted := currentVal - diff * proportion
              nodes.set i (toFixed2 (mathMax (num 0) adjusted))
            else nodes) currentNodes
      let nodes2 := nodes1.set changedIndex (toFixed2 newValue)
      some (normalizeTo100 nodes2 changedIndex)

/-- Index-aware map, the first element having index `k`. -/
def mapIdxFrom {α : Type} (f : ℕ → α → α) : ℕ → List α → List α
  | _, [] => []
  | k, a :: as => f k a :: mapIdxFrom f (k + 1) as

/-- The value `normalizeTo100` stores for an adjustable slice of value `x`. -/
def normalizedShare (drift adjustSum x : JSNum) : JSNum :=
  toFixed2 (mathMax (num 0) (x - drift * (x / adjustSum)))

/-- The list `adjustable` of `normalizeTo100`. -/
def adjustableOf (currentNodes : Group) (fixedIndex : ℕ) : List (ℕ × JSNum) :=
  (currentNodes.enum).filter (fun x => decide (x.1 ≠ fixedIndex) && gt x.2 (num 0))

/-- The value the proportional branch of `adjustAllocations` stores for a slice of value `x`. -/
def proportionalShare (diff sumOthers x : JSNum) : JSNum :=
  toFixed2 (mathMax (num 0) (x - diff * (x / sumOthers)))

/-- The list `adjustAllocations` holds after its redistribution loop. -/
def redistributed (g : Group) (i : ℕ) (newValue oldVal : JSNum) : Group :=
  if le (num 100 - oldVal) (num 0) then
    mapIdxFrom (fun j x => if j ≠ i then
      toFixed2 (mathMax (num 0) ((num 100 - newValue) / num ((g.length : ℚ) - 1))) else x) 0 g
  else
    mapIdxFrom (fun j x => if j ≠ i then
      proportionalShare (newValue - oldVal) (num 100 - oldVal) x else x) 0 g

/-- The value `normalizeTo100` leaves in a non-fixed slice of value `x`, on numbers. -/
def normalizedShareQ (drift adjustSum x : ℚ) : ℚ :=
  if 0 < x then toFixed2Q (max 0 (x - drift * (x / adjustSum))) else x

/-- The value the redistribution loop of `adjustAllocations` stores in a slice of value `x`
other than the changed one, on numbers: `n` is the size of the group, `oldVal` the previous
value of the changed slice and `nv` the clamped new value. -/
def redistributedShareQ (n : ℕ) (oldVal nv x : ℚ) : ℚ :=
  if 100 - oldVal ≤ 0 then toFixed2Q (max 0 ((100 - nv) / ((n : ℚ) - 1)))
  else toFixed2Q (max 0 (x - (nv - oldVal) * (x / (100 - oldVal))))

/-! ## Two-decimal rounding -/

theorem toFixed2Q_of_nonneg {x : ℚ} (h0 : 0 ≤ x) (h1 : x ≤ 100) :
    toFixed2Q x = (⌊x * 100 + 1 / 2⌋ : ℤ) / 100 := by
  have h2 : ¬ ((10 : ℚ) ^ 21 ≤ x) := by
    intro h
    have : (100 : ℚ) < 10 ^ 21 := by norm_num
    linarith
  simp [toFixed2Q, toFixed2Pos, not_lt.mpr h0, h2]

theorem toFixed2Q_nonneg {x : ℚ} (h0 : 0 ≤ x) (h1 : x ≤ 100) : 0 ≤ toFixed2Q x := by
  rw [toFixed2Q_of_nonneg h0 h1]
  have : (0 : ℤ) ≤ ⌊x * 100 + 1 / 2⌋ := Int.floor_nonneg.mpr (by linarith)
  have h : (0 : ℚ) ≤ (⌊x * 100 + 1 / 2⌋ : ℤ) := by exact_mod_cast this
  positivity

theorem toFixed2Q_le {x t : ℚ} (h0 : 0 ≤ x) (hxt : x ≤ t) (ht : t ≤ 100) :
    toFixed2Q x ≤ toFixed2Q t := by
  rw [toFixed2Q_of_nonneg h0 (hxt.trans ht), toFixed2Q_of_nonneg (h0.trans hxt) ht]
  have : ⌊x * 100 + 1 / 2⌋ ≤ ⌊t * 100 + 1 / 2⌋ := Int.floor_mono (by linarith)
  have h : ((⌊x * 100 + 1 / 2⌋ : ℤ) : ℚ) ≤ (⌊t * 100 + 1 / 2⌋ : ℤ) := by exact_mod_cast this
  linarith

theorem toFixed2Q_of_int (k : ℤ) (h0 : 0 ≤ (k : ℚ) / 100) (h1 : (k : ℚ) / 100 ≤ 100) :
    toFixed2Q ((k : ℚ) / 100) = (k : ℚ) / 100 := by
  rw [toFixed2Q_of_nonneg h0 h1]
  have : ⌊(k : ℚ) / 100 * 100 + 1 / 2⌋ = k := by
    rw [Int.floor_eq_iff]
    constructor <;> norm_num
  rw [this]

theorem toFixed2Q_zero : toFixed2Q 0 = 0 := by
  simpa using toFixed2Q_of_int 0 (by norm_num) (by norm_num)

theorem toFixed2Q_hundred : toFixed2Q 100 = 100 := by
  have := toFixed2Q_of_int 10000 (by norm_num) (by norm_num)
  norm_num at this
  exact this

theorem toFixed2Q_le_hundred {x : ℚ} (h0 : 0 ≤ x) (h1 : x ≤ 100) : toFixed2Q x ≤ 100 := by
  have := toFixed2Q_le h0 h1 le_rfl
  rwa [toFixed2Q_hundred] at this

theorem toFixed2Q_error {x : ℚ} (h0 : 0 ≤ x) (h1 : x ≤ 100) :
    |toFixed2Q x - x| ≤ 5 / 1000 := by
  rw [toFixed2Q_of_nonneg h0 h1]
  have hl := Int.floor_le (x * 100 + 1 / 2)
  have hu := Int.lt_floor_add_one (x * 100 + 1 / 2)
  rw [abs_le]
  constructor <;> linarith

/-! ## Loops as index-aware maps -/

theorem set_length_append {α : Type} (pre : List α) (a y : α) (as : List α) :
    (pre ++ a :: as).set pre.length y = (pre ++ [y]) ++ as := by
  induction pre with
  | nil => simp
  | cons p ps ih => simp

theorem getD_length_append {α : Type} (pre : List α) (a d : α) (as : List α) :
    (pre ++ a :: as).getD pre.length d = a := by
  induction pre with
  | nil => simp
  | cons p ps ih => simpa using ih

/-- A counting loop that overwrites slot `i` from its own content is an index-aware map. -/
theorem foldl_range_set {α : Type} (c : ℕ → Prop) [DecidablePred c] (F : α → α) (d : α) :
    ∀ (xs pre : List α),
      (List.range' pre.length xs.length).foldl
        (fun acc i => if c i then acc.set i (F (acc.getD i d)) else acc) (pre ++ xs)
      = pre ++ mapIdxFrom (fun j x => if c j then F x else x) pre.length xs := by
  intro xs
  induction xs with
  | nil => intro pre; simp [mapIdxFrom]
  | cons a as ih =>
    intro pre
    have h := ih (pre ++ [a])
    have h' := ih (pre ++ [F a])
    simp only [List.length_append, List.length_singleton, List.append_assoc,
      List.singleton_append] at h h'
    simp only [List.length_cons, List.range'_succ, List.foldl_cons, mapIdxFrom,
      getD_length_append]
    by_cases hc : c pre.length
    · simp only [hc, if_true, set_length_append, List.append_assoc, List.singleton_append]
      exact h'
    · simp only [hc, if_false]
      exact h

/-- A loop over the filtered enumeration of a list that overwrites the slot of each item
from the value of the item is an index-aware map. -/
theorem foldl_filter_enum_set {α : Type} (p : ℕ × α → Bool) (H : α → α) :
    ∀ (xs pre : List α),
      ((xs.enumFrom pre.length).filter p).foldl
        (fun nodes item => nodes.set item.1 (H item.2)) (pre ++ xs)
      = pre ++ mapIdxFrom (fun j x => if p (j, x) then H x else x) pre.length xs := by
  intro xs
  induction xs with
  | nil => intro pre; simp [mapIdxFrom]
  | cons a as ih =>
    intro pre
    have h := ih (pre ++ [a])
    have h' := ih (pre ++ [H a])
    simp only [List.length_append, List.length_singleton, List.append_assoc,
      List.singleton_append] at h h'
    simp only [List.enumFrom_cons, mapIdxFrom]
    by_cases hc : p (pre.length, a) = true
    · simp only [List.filter_cons, hc, if_true, List.foldl_cons, set_length_append,
        List.append_assoc, List.singleton_append]
      exact h'
    · simp only [List.filter_cons, hc, if_false]
      simpa using h

theorem mapIdxFrom_length {α : Type} (f : ℕ → α → α) :
    ∀ (xs : List α) (k : ℕ), (mapIdxFrom f k xs).length = xs.length := by
  intro xs
  induction xs with
  | nil => intro k; rfl
  | cons a as ih => intro k; simp [mapIdxFrom, ih]

theorem mapIdxFrom_get? {α : Type} (f : ℕ → α → α) :
    ∀ (xs : List α) (k j : ℕ), (mapIdxFrom f k xs)[j]? = (xs[j]?).map (f (k + j)) := by
  intro xs
  induction xs with
  | nil => intro k j; simp [mapIdxFrom]
  | cons a as ih =>
    intro k j
    cases j with
    | zero => simp [mapIdxFrom]
    | succ j =>
      simp only [mapIdxFrom, List.getElem?_cons_succ]
      rw [ih, Nat.add_assoc, Nat.add_comm 1 j]

theorem mapIdxFrom_append {α : Type} (f : ℕ → α → α) :
    ∀ (xs ys : List α) (k : ℕ),
      mapIdxFrom f k (xs ++ ys) = mapIdxFrom f k xs ++ mapIdxFrom f (k + xs.length) ys := by
  intro xs
  induction xs with
  | nil => intro ys k; simp [mapIdxFrom]
  | cons a as ih =>
    intro ys k
    simp [mapIdxFrom, ih, Nat.add_assoc, Nat.add_comm 1]

theorem mapIdxFrom_eq_map {α : Type} (f : ℕ → α → α) (h : α → α) :
    ∀ (xs : List α) (k : ℕ), (∀ j x, k ≤ j → j < k + xs.length → x ∈ xs → f j x = h x) →
      mapIdxFrom f k xs = xs.map h := by
  intro xs
  induction xs with
  | nil => intro k _; rfl
  | cons a as ih =>
    intro k hf
    simp only [mapIdxFrom, List.map_cons]
    rw [hf k a le_rfl (by simp) (by simp), ih (k + 1)]
    intro j x h1 h2 h3
    exact hf j x (by omega) (by simp at h2 ⊢; omega) (by simp [h3])

/-! ## The two functions without loops -/

/-- The store loop of `normalizeTo100` is an index-aware map over the group. -/
theorem normalizeTo100_eq (g : Group) (f : ℕ) :
    normalizeTo100 g f =
      if lt (mathAbs (g.foldl (fun s n => s + n) (num 0) - num 100)) (num (5 / 1000)) then g
      else if (adjustableOf g f).length = 0 then g
      else mapIdxFrom (fun j x =>
        if (decide (j ≠ f) && gt x (num 0)) = true then
          normalizedShare (g.foldl (fun s n => s + n) (num 0) - num 100)
            ((adjustableOf g f).foldl (fun s x => s + x.2) (num 0)) x
        else x) 0 g := by
  unfold normalizeTo100
  simp only []
  by_cases h1 : lt (mathAbs (g.foldl (fun s n => s + n) (num 0) - num 100)) (num (5 / 1000)) = true
  · rw [if_pos h1, if_pos h1]
  · rw [if_neg h1, if_neg h1]
    by_cases h2 : (adjustableOf g f).length = 0
    · have h2' : (List.filter (fun x : ℕ × JSNum => decide (x.1 ≠ f) && gt x.2 (num 0))
          (List.enum g)).length = 0 := h2
      rw [if_pos h2', if_pos h2]
    · have h2' : ¬ (List.filter (fun x : ℕ × JSNum => decide (x.1 ≠ f) && gt x.2 (num 0))
          (List.enum g)).length = 0 := h2
      rw [if_neg h2', if_neg h2]
      have h := foldl_filter_enum_set (fun x : ℕ × JSNum => decide (x.1 ≠ f) && gt x.2 (num 0))
        (normalizedShare (g.foldl (fun s n => s + n) (num 0) - num 100)
            ((adjustableOf g f).foldl (fun s x => s + x.2) (num 0))) g []
      simp only [List.length_nil, List.nil_append] at h
      exact h

/-- The redistribution loop of `adjustAllocations` is an index-aware map over the group. -/
theorem adjustAllocations_eq (g : Group) (i : ℕ) (v : JSNum) :
    adjustAllocations g i v =
      match g[i]? with
      | none => none
      | some oldVal =>
        if lt (mathAbs (mathMax (num 0) (mathMin (num 100) v) - oldVal)) (num (1 / 1000)) then some g
        else some (normalizeTo100
          ((redistributed g i (mathMax (num 0) (mathMin (num 100) v)) oldVal).set i
            (toFixed2 (mathMax (num 0) (mathMin (num 100) v)))) i) := by
  unfold adjustAllocations
  simp only []
  cases hg : g[i]? with
  | none => rfl
  | some oldVal =>
    simp only []
    split
    · rfl
    · have hA := foldl_range_set (fun j => j ≠ i)
        (fun _ => toFixed2 (mathMax (num 0) ((num 100 - mathMax (num 0) (mathMin (num 100) v)) / num ((g.length : ℚ) - 1))))
        nan g []
      have hB := foldl_range_set (fun j => j ≠ i)
        (proportionalShare (mathMax (num 0) (mathMin (num 100) v) - oldVal) (num 100 - oldVal)) nan g []
      simp only [List.length_nil, List.nil_append, ← List.range_eq_range'] at hA hB
      unfold redistributed forRange
      split
      · rw [← hA]
      · rw [← hB]; rfl

/-! ## Arithmetic on numbers that are not NaN -/

@[simp]
theorem num_add (a b : ℚ) : num a + num b = num (a + b) := rfl
@[simp]
theorem num_sub (a b : ℚ) : num a - num b = num (a - b) := rfl
@[simp]
theorem num_mul (a b : ℚ) : num a * num b = num (a * b) := rfl
@[simp]
theorem num_div (a b : ℚ) : num a / num b = if b = 0 then nan else num (a / b) := rfl
@[simp]
theorem lt_num (a b : ℚ) : lt (num a) (num b) = decide (a < b) := rfl
@[simp]
theorem le_num (a b : ℚ) : le (num a) (num b) = decide (a ≤ b) := rfl
@[simp]
theorem gt_num (a b : ℚ) : gt (num a) (num b) = decide (b < a) := rfl
@[simp]
theorem mathAbs_num (a : ℚ) : mathAbs (num a) = num |a| := rfl
@[simp]
theorem mathMax_num (a b : ℚ) : mathMax (num a) (num b) = num (max a b) := rfl
@[simp]
theorem mathMin_num (a b : ℚ) : mathMin (num a) (num b) = num (min a b) := rfl
@[simp]
theorem toFixed2_num (a : ℚ) : toFixed2 (num a) = num (toFixed2Q a) := rfl

theorem clamp_comm (v : ℚ) : max 0 (min 100 v) = min 100 (max 0 v) := by
  rcases le_total v 0 with h | h
  · rw [min_eq_right (by linarith : v ≤ 100), max_eq_left h, min_eq_right (by norm_num : (0 : ℚ) ≤ 100)]
  · rcases le_total v 100 with h' | h'
    · rw [min_eq_right h', max_eq_right h, min_eq_right h']
    · rw [min_eq_left h', max_eq_right h, min_eq_left h', max_eq_right (by norm_num : (0 : ℚ) ≤ 100)]

theorem clamp_num (v : ℚ) : mathMax (num 0) (mathMin (num 100) (num v)) = num (min 100 (max 0 v)) := by
  simp [clamp_comm]

theorem clamp_range (v : ℚ) : 0 ≤ min 100 (max 0 v) ∧ min 100 (max 0 v) ≤ 100 :=
  ⟨le_min (by norm_num) (le_max_left _ _), min_le_left _ _⟩

theorem clamp_idem (v : JSNum) :
    mathMax (num 0) (mathMin (num 100) (mathMax (num 0) (mathMin (num 100) v))) = mathMax (num 0) (mathMin (num 100) v) := by
  cases v with
  | nan => rfl
  | num q =>
    rw [clamp_num, clamp_num]
    congr 1
    have h := clamp_range q
    rw [max_eq_right h.1, min_eq_right h.2]

/-- C3: `adjustAllocations(i, v)` and `adjustAllocations(i, min(100, max(0, v)))` produce the
same result on every group, for every index and every number `v`. -/
theorem adjustAllocations_clamp (g : Group) (i : ℕ) (v : ℚ) :
    adjustAllocations g i (num v) = adjustAllocations g i (num (min 100 (max 0 v))) := by
  rw [adjustAllocations_eq, adjustAllocations_eq g i (num (min 100 (max 0 v))),
    ← clamp_num, clamp_idem]

theorem adjustableOf_length_eq_zero (g : Group) (f : ℕ)
    (h : ∀ j x, g[j]? = some x → j ≠ f → gt x (num 0) = false) : (adjustableOf g f).length = 0 := by
  rw [List.length_eq_zero]
  unfold adjustableOf
  rw [List.filter_eq_nil_iff]
  rintro ⟨j, x⟩ hx
  have hx' : g[j]? = some x := List.mk_mem_enum_iff_getElem?.mp hx
  by_cases hj : j = f
  · simp [hj]
  · simp [hj, h j x hx' hj]

theorem normalizeTo100_getElem? (g : Group) (f j : ℕ) (x : JSNum) (hx : g[j]? = some x)
    (h : j = f ∨ gt x (num 0) = false) : (normalizeTo100 g f)[j]? = some x := by
  rw [normalizeTo100_eq]
  split
  · exact hx
  · split
    · exact hx
    · rw [mapIdxFrom_get?, hx]
      rcases h with h | h
      · simp [h]
      · simp [h]

/-- C6: `normalizeTo100(f)` keeps the length of the group, the allocation at index `f`, every
allocation equal to 0 and more generally every allocation that is not `> 0`; when the drift
is below 0.005 in absolute value, or no sibling other than `f` has an allocation `> 0`, the
whole group is left as it is. -/
theorem normalizeTo100_frame (g : Group) (f : ℕ) :
    (normalizeTo100 g f).length = g.length ∧
    (normalizeTo100 g f)[f]? = g[f]? ∧
    (∀ j : ℕ, g[j]? = some (num 0) → (normalizeTo100 g f)[j]? = some (num 0)) ∧
    (∀ j x, g[j]? = some x → (j = f ∨ gt x (num 0) = false) → (normalizeTo100 g f)[j]? = some x) ∧
    (lt (mathAbs (g.foldl (fun s n => s + n) (num 0) - num 100)) (num (5 / 1000)) = true →
      normalizeTo100 g f = g) ∧
    ((∀ j x, g[j]? = some x → j ≠ f → gt x (num 0) = false) → normalizeTo100 g f = g) := by
  refine ⟨?_, ?_, ?_, ?_, ?_, ?_⟩
  · rw [normalizeTo100_eq]
    split
    · rfl
    · split
      · rfl
      · exact mapIdxFrom_length _ _ _
  · cases hf : g[f]? with
    | none =>
      have hlen : (normalizeTo100 g f).length = g.length := by
        rw [normalizeTo100_eq]
        split
        · rfl
        · split
          · rfl
          · exact mapIdxFrom_length _ _ _
      rw [List.getElem?_eq_none_iff] at hf ⊢
      omega
    | some x => exact normalizeTo100_getElem? g f f x hf (Or.inl rfl)
  · intro j hj
    exact normalizeTo100_getElem? g f j (num 0) hj (Or.inr (by simp))
  · intro j x hx h
    exact normalizeTo100_getElem? g f j x hx h
  · intro h
    rw [normalizeTo100_eq, if_pos h]
  · intro h
    rw [normalizeTo100_eq, if_pos (adjustableOf_length_eq_zero g f h)]
    simp

theorem normalizeTo100_frame_witness :
    normalizeTo100 [num 50, num 0, num 30] 0 = [num 50, num 0, num (50 : ℚ)] ∧
    (normalizeTo100 [num 50, num 0, num 30] 0)[0]? = [num 50, num 0, num 30][0]? ∧
    (normalizeTo100 [num 50, num 0, num 30] 0)[1]? = some (num 0) :=
  ⟨by decide!, (normalizeTo100_frame [num 50, num 0, num 30] 0).2.1,
    (normalizeTo100_frame [num 50, num 0, num 30] 0).2.2.1 1 rfl⟩

/-! ## Groups of numbers -/

theorem foldl_add_num (qs : List ℚ) :
    ∀ c : ℚ, (qs.map num).foldl (fun s n => s + n) (num c) = num (c + qs.sum) := by
  induction qs with
  | nil => intro c; simp
  | cons a as ih => intro c; simp [ih, add_assoc]

theorem filter_enum_snd {α : Type} (q : α → Bool) (f : ℕ) :
    ∀ (xs : List α) (k : ℕ), (∀ j, k ≤ j → j < k + xs.length → j ≠ f) →
      ((xs.enumFrom k).filter (fun x => decide (x.1 ≠ f) && q x.2)).map Prod.snd
        = xs.filter q := by
  intro xs
  induction xs with
  | nil => intro k _; rfl
  | cons a as ih =>
    intro k hk
    have h1 : k ≠ f := hk k le_rfl (by simp)
    have h2 := ih (k + 1) (fun j hj1 hj2 => hk j (by omega) (by simp at hj2 ⊢; omega))
    simp only [List.enumFrom_cons, List.filter_cons, h1, ne_eq, not_false_eq_true,
      decide_True, Bool.true_and]
    by_cases hq : q a = true
    · simp only [hq, if_true, List.map_cons, List.cons.injEq, true_and]
      exact h2
    · simp only [hq, if_false]
      exact h2

theorem adjustableOf_snd (l₁ l₂ : List JSNum) (a : JSNum) :
    (adjustableOf (l₁ ++ a :: l₂) l₁.length).map Prod.snd
      = (l₁ ++ l₂).filter (fun x => gt x (num 0)) := by
  unfold adjustableOf List.enum
  rw [List.enumFrom_append, List.enumFrom_cons, List.filter_append, List.filter_cons]
  simp only [ne_eq, not_true_eq_false, decide_False, Bool.false_and, Bool.false_eq_true,
    if_false, List.map_append, List.filter_append, zero_add]
  have h1 := filter_enum_snd (fun x => gt x (num 0)) l₁.length l₁ 0 (by intro j _ h; omega)
  have h2 := filter_enum_snd (fun x => gt x (num 0)) l₁.length l₂ (l₁.length + 1)
    (by intro j h _; omega)
  simp only [ne_eq] at h1 h2
  rw [h1, h2]

theorem filter_gt_num (qs : List ℚ) :
    (qs.map num).filter (fun x => gt x (num 0)) = (qs.filter (fun x => decide (0 < x))).map num := by
  induction qs with
  | nil => rfl
  | cons a as ih =>
    simp only [List.map_cons, List.filter_cons, gt_num, ih]
    split <;> rfl

theorem mapIdxFrom_split {α : Type} (f : ℕ → α → α) (h : α → α) (l₁ l₂ : List α) (a : α)
    (hf : ∀ j x, j ≠ l₁.length → f j x = h x) :
    mapIdxFrom f 0 (l₁ ++ a :: l₂) = l₁.map h ++ f l₁.length a :: l₂.map h := by
  rw [mapIdxFrom_append, mapIdxFrom_eq_map f h l₁ 0 (fun j x _ hj _ => hf j x (by omega))]
  simp only [mapIdxFrom, zero_add]
  rw [mapIdxFrom_eq_map f h l₂ (l₁.length + 1) (fun j x hj _ _ => hf j x (by omega))]

theorem sum_filter_pos_pos (l : List ℚ) (h : l.filter (fun x => decide (0 < x)) ≠ []) :
    0 < (l.filter (fun x => decide (0 < x))).sum := by
  have hpos : ∀ x ∈ l.filter (fun x => decide (0 < x)), 0 < x := by
    intro x hx
    simpa using (List.mem_filter.mp hx).2
  generalize l.filter (fun x => decide (0 < x)) = m at h hpos
  cases m with
  | nil => exact absurd rfl h
  | cons b bs =>
    have hb : 0 < b := hpos b (by simp)
    have hbs : 0 ≤ bs.sum := List.sum_nonneg (fun x hx => (hpos x (by simp [hx])).le)
    simp only [List.sum_cons]
    linarith

/-- On a group of numbers with the fixed index in range, `normalizeTo100` in closed form. -/
theorem normalizeTo100_num (l₁ l₂ : List ℚ) (a : ℚ) :
    normalizeTo100 ((l₁ ++ a :: l₂).map num) l₁.length =
      (if |(l₁.sum + a + l₂.sum) - 100| < 5 / 1000 then l₁ ++ a :: l₂
       else if (l₁ ++ l₂).filter (fun x => decide (0 < x)) = [] then l₁ ++ a :: l₂
       else
        l₁.map (normalizedShareQ (l₁.sum + a + l₂.sum - 100)
          ((l₁ ++ l₂).filter (fun x => decide (0 < x))).sum) ++ a ::
        l₂.map (normalizedShareQ (l₁.sum + a + l₂.sum - 100)
          ((l₁ ++ l₂).filter (fun x => decide (0 < x))).sum)).map num := by
  have hsum : (List.map num (l₁ ++ a :: l₂)).foldl (fun s n => s + n) (num 0)
      = num (l₁.sum + a + l₂.sum) := by
    rw [foldl_add_num]; simp [add_assoc]
  have hadj : (adjustableOf (List.map num (l₁ ++ a :: l₂)) l₁.length).map Prod.snd
      = ((l₁ ++ l₂).filter (fun x => decide (0 < x))).map num := by
    have := adjustableOf_snd (l₁.map num) (l₂.map num) (num a)
    simp only [List.length_map] at this
    rw [List.map_append, List.map_cons, this, ← List.map_append, filter_gt_num]
  have hlen : (adjustableOf (List.map num (l₁ ++ a :: l₂)) l₁.length).length
      = ((l₁ ++ l₂).filter (fun x => decide (0 < x))).length := by
    have := congrArg List.length hadj
    simpa using this
  have hadjsum : (adjustableOf (List.map num (l₁ ++ a :: l₂)) l₁.length).foldl
      (fun s x => s + x.2) (num 0) = num ((l₁ ++ l₂).filter (fun x => decide (0 < x))).sum := by
    have := List.foldl_map Prod.snd (fun (s : JSNum) (n : JSNum) => s + n)
      (adjustableOf (List.map num (l₁ ++ a :: l₂)) l₁.length) (num 0)
    rw [← this, hadj, foldl_add_num]; simp
  rw [normalizeTo100_eq, hsum, hlen, hadjsum]
  simp only [num_sub, mathAbs_num, lt_num, decide_eq_true_eq, List.length_eq_zero]
  split
  · rfl
  · split
    · rfl
    · rename_i hne
      have hA := sum_filter_pos_pos (l₁ ++ l₂) hne
      have hf : ∀ (j : ℕ) (x : JSNum), j ≠ (l₁.map num).length →
          (if (decide (j ≠ l₁.length) && gt x (num 0)) = true then
            normalizedShare (num (l₁.sum + a + l₂.sum - 100))
              (num ((l₁ ++ l₂).filter (fun x => decide (0 < x))).sum) x else x)
          = (fun x => if gt x (num 0) = true then
            normalizedShare (num (l₁.sum + a + l₂.sum - 100))
              (num ((l₁ ++ l₂).filter (fun x => decide (0 < x))).sum) x else x) x := by
        intro j x hj
        simp only [List.length_map] at hj
        simp [hj]
      rw [List.map_append, List.map_cons, mapIdxFrom_split _ _ _ _ _ hf]
      have hm : ∀ l : List ℚ, (l.map num).map (fun x => if gt x (num 0) = true then
            normalizedShare (num (l₁.sum + a + l₂.sum - 100))
              (num ((l₁ ++ l₂).filter (fun x => decide (0 < x))).sum) x else x)
          = (l.map (normalizedShareQ (l₁.sum + a + l₂.sum - 100)
              ((l₁ ++ l₂).filter (fun x => decide (0 < x))).sum)).map num := by
        intro l
        rw [List.map_map, List.map_map]
        apply List.map_congr_left
        intro x _
        simp only [Function.comp, gt_num, decide_eq_true_eq, normalizedShare, normalizedShareQ,
          num_div, hA.ne', if_false, num_mul, num_sub, mathMax_num, toFixed2_num]
        split <;> rfl
      rw [hm, hm]
      simp [List.length_map]

theorem map_map_num (h : JSNum → JSNum) (F : ℚ → ℚ) (l : List ℚ)
    (hF : ∀ x ∈ l, h (num x) = num (F x)) : (l.map num).map h = (l.map F).map num := by
  rw [List.map_map, List.map_map]
  exact List.map_congr_left (fun x hx => hF x hx)

theorem getElem?_length_append {α : Type} (l₁ l₂ : List α) (a : α) :
    (l₁ ++ a :: l₂)[l₁.length]? = some a := by
  induction l₁ with
  | nil => simp
  | cons p ps ih => simpa using ih

/-- On a group of numbers with the changed index in range, `adjustAllocations` in closed
form, up to the final call of `normalizeTo100`. -/
theorem adjustAllocations_num (l₁ l₂ : List ℚ) (a v : ℚ) :
    adjustAllocations ((l₁ ++ a :: l₂).map num) l₁.length (num v) =
      some (if |min 100 (max 0 v) - a| < 1 / 1000 then (l₁ ++ a :: l₂).map num
        else normalizeTo100
          ((l₁.map (redistributedShareQ (l₁ ++ a :: l₂).length a (min 100 (max 0 v))) ++
            toFixed2Q (min 100 (max 0 v)) ::
            l₂.map (redistributedShareQ (l₁ ++ a :: l₂).length a (min 100 (max 0 v)))).map num)
          l₁.length) := by
  have hget : (List.map num (l₁ ++ a :: l₂))[l₁.length]? = some (num a) := by
    rw [List.map_append, List.map_cons]
    have := getElem?_length_append (l₁.map num) (l₂.map num) (num a)
    simpa using this
  rw [adjustAllocations_eq, hget]
  simp only [clamp_num, num_sub, mathAbs_num, lt_num, decide_eq_true_eq, toFixed2_num]
  by_cases hd : |min 100 (max 0 v) - a| < 1 / 1000
  · rw [if_pos hd, if_pos hd]
  · rw [if_neg hd, if_neg hd]
    congr 2
    have hlen : (List.map num (l₁ ++ a :: l₂)).length = (l₁ ++ a :: l₂).length := by simp
    have hset : ∀ (h : JSNum → JSNum) (F : ℚ → ℚ), (∀ x ∈ l₁ ++ l₂, h (num x) = num (F x)) →
        (mapIdxFrom (fun j x => if j ≠ l₁.length then h x else x) 0
          (List.map num (l₁ ++ a :: l₂))).set l₁.length (num (toFixed2Q (min 100 (max 0 v))))
        = (l₁.map F ++ toFixed2Q (min 100 (max 0 v)) :: l₂.map F).map num := by
      intro h F hF
      have hf : ∀ (j : ℕ) (x : JSNum), j ≠ (l₁.map num).length →
          (fun j x => if j ≠ l₁.length then h x else x) j x = h x := by
        intro j x hj
        simp only [List.length_map] at hj
        simp [hj]
      rw [List.map_append, List.map_cons, mapIdxFrom_split _ h _ _ _ hf,
        map_map_num h F l₁ (fun x hx => hF x (by simp [hx])),
        map_map_num h F l₂ (fun x hx => hF x (by simp [hx]))]
      have hs := set_length_append ((l₁.map F).map num)
        ((fun j x => if j ≠ l₁.length then h x else x) (l₁.map num).length (num a))
        (num (toFixed2Q (min 100 (max 0 v)))) ((l₂.map F).map num)
      simp only [List.length_map] at hs ⊢
      rw [hs]
      simp
    unfold redistributed
    rw [hlen]
    simp only [num_sub, le_num, decide_eq_true_eq]
    by_cases hb : 100 - a ≤ 0
    · rw [if_pos hb]
      apply hset
      intro x hx
      have hn : ((l₁ ++ a :: l₂).length : ℚ) - 1 ≠ 0 := by
        have h1 : 0 < (l₁ ++ l₂).length := List.length_pos_of_mem hx
        have h2 : (l₁ ++ a :: l₂).length = (l₁ ++ l₂).length + 1 := by
          simp only [List.length_append, List.length_cons]; omega
        rw [h2]
        have h3 : (0 : ℚ) < ((l₁ ++ l₂).length : ℚ) := by exact_mod_cast h1
        push_cast
        push_cast at h3
        linarith
      simp only [num_div, hn, if_false, mathMax_num, toFixed2_num, redistributedShareQ, hb,
        if_true]
    · rw [if_neg hb]
      apply hset
      intro x _
      have hn : (100 : ℚ) - a ≠ 0 := by
        intro h0
        exact hb (le_of_eq h0)
      simp only [proportionalShare, num_div, hn, if_false, num_mul, num_sub, mathMax_num,
        toFixed2_num, redistributedShareQ, hb]

/-! ## Rounding a list of exact shares -/

theorem map_toFixed2Q_range (l : List ℚ) (h : ∀ x ∈ l, 0 ≤ x ∧ x ≤ 100) :
    ∀ y ∈ l.map toFixed2Q, 0 ≤ y ∧ y ≤ 100 := by
  intro y hy
  obtain ⟨x, hx, rfl⟩ := List.mem_map.mp hy
  exact ⟨toFixed2Q_nonneg (h x hx).1 (h x hx).2, toFixed2Q_le_hundred (h x hx).1 (h x hx).2⟩

theorem map_toFixed2Q_sum (l : List ℚ) (h : ∀ x ∈ l, 0 ≤ x ∧ x ≤ 100) :
    |(l.map toFixed2Q).sum - l.sum| ≤ 5 / 1000 * l.length := by
  induction l with
  | nil => simp
  | cons a as ih =>
    have h1 := toFixed2Q_error (h a (by simp)).1 (h a (by simp)).2
    have h2 := ih (fun x hx => h x (by simp [hx]))
    simp only [List.map_cons, List.sum_cons, List.length_cons, Nat.cast_add, Nat.cast_one]
    have h3 : toFixed2Q a + (as.map toFixed2Q).sum - (a + as.sum)
        = (toFixed2Q a - a) + ((as.map toFixed2Q).sum - as.sum) := by ring
    rw [h3]
    calc |toFixed2Q a - a + ((as.map toFixed2Q).sum - as.sum)|
        ≤ |toFixed2Q a - a| + |(as.map toFixed2Q).sum - as.sum| := abs_add _ _
      _ ≤ 5 / 1000 + 5 / 1000 * as.length := add_le_add h1 h2
      _ = 5 / 1000 * (as.length + 1) := by ring

theorem sum_map_scale (d s : ℚ) (l : List ℚ) :
    (l.map (fun x => x - d * (x / s))).sum = l.sum - d * (l.sum / s) := by
  induction l with
  | nil => simp
  | cons a as ih =>
    simp only [List.map_cons, List.sum_cons, ih]
    ring

theorem sum_filter_pos (l : List ℚ) (h : ∀ x ∈ l, 0 ≤ x) :
    (l.filter (fun x => decide (0 < x))).sum = l.sum := by
  induction l with
  | nil => rfl
  | cons a as ih =>
    have ha := h a (by simp)
    have ih' := ih (fun x hx => h x (by simp [hx]))
    rw [List.filter_cons]
    by_cases hp : 0 < a
    · simp [hp, ih']
    · have h0 : a = 0 := le_antisymm (not_lt.mp hp) ha
      simp [hp, ih', h0]

theorem le_sum_of_mem (l : List ℚ) (h : ∀ x ∈ l, 0 ≤ x) : ∀ x ∈ l, x ≤ l.sum := by
  induction l with
  | nil => intro x hx; simp at hx
  | cons a as ih =>
    intro x hx
    have hs : 0 ≤ as.sum := List.sum_nonneg (fun y hy => h y (by simp [hy]))
    have ha := h a (by simp)
    simp only [List.sum_cons]
    rcases List.mem_cons.mp hx with rfl | hx'
    · linarith
    · have := ih (fun y hy => h y (by simp [hy])) x hx'
      linarith

/-- Values `x` of a non-negative list of sum `s > 0` scaled to a total `t` in [0,100]:
each share `x - (s - t) * (x / s)` lies in [0,100]. -/
theorem scaled_share_range (l : List ℚ) (h : ∀ x ∈ l, 0 ≤ x) (t : ℚ) (ht0 : 0 ≤ t)
    (ht : t ≤ 100) (hs : 0 < l.sum) :
    ∀ x ∈ l, 0 ≤ x - (l.sum - t) * (x / l.sum) ∧ x - (l.sum - t) * (x / l.sum) ≤ 100 := by
  intro x hx
  have hx0 := h x hx
  have hxs := le_sum_of_mem l h x hx
  have he : x - (l.sum - t) * (x / l.sum) = x / l.sum * t := by
    field_simp
    ring
  rw [he]
  have hq0 : 0 ≤ x / l.sum := div_nonneg hx0 hs.le
  have hq1 : x / l.sum ≤ 1 := (div_le_one hs).mpr hxs
  constructor
  · exact mul_nonneg hq0 ht0
  · calc x / l.sum * t ≤ 1 * t := mul_le_mul_of_nonneg_right hq1 ht0
      _ ≤ 100 := by linarith

theorem scaled_share_sum (l : List ℚ) (t : ℚ) (hs : 0 < l.sum) :
    (l.map (fun x => x - (l.sum - t) * (x / l.sum))).sum = t := by
  rw [sum_map_scale, div_self hs.ne']
  ring

/-! ## The core of `normalizeTo100` on a group of numbers in [0,100] -/

/-- On a group of numbers in [0,100], `normalizeTo100` returns numbers in [0,100]; the group
is either left as it is or its sum is within 0.005 per non-fixed slice of 100. -/
theorem normalize_core (L₁ L₂ : List ℚ) (C : ℚ)
    (hr : ∀ x ∈ L₁ ++ C :: L₂, 0 ≤ x ∧ x ≤ 100) :
    ∃ qs' : List ℚ, normalizeTo100 ((L₁ ++ C :: L₂).map num) L₁.length = qs'.map num ∧
      (∀ x ∈ qs', 0 ≤ x ∧ x ≤ 100) ∧
      (qs' = L₁ ++ C :: L₂ ∨ |qs'.sum - 100| ≤ 5 / 1000 * (L₁.length + L₂.length)) := by
  rw [normalizeTo100_num]
  by_cases h1 : |L₁.sum + C + L₂.sum - 100| < 5 / 1000
  · rw [if_pos h1]
    exact ⟨_, rfl, hr, Or.inl rfl⟩
  · rw [if_neg h1]
    by_cases h2 : (L₁ ++ L₂).filter (fun x => decide (0 < x)) = []
    · rw [if_pos h2]
      exact ⟨_, rfl, hr, Or.inl rfl⟩
    · rw [if_neg h2]
      have hC := hr C (by simp)
      have hnn : ∀ x ∈ L₁ ++ L₂, 0 ≤ x := by
        intro x hx
        refine (hr x ?_).1
        rcases List.mem_append.mp hx with h | h
        · simp [h]
        · simp [h]
      have hA0 := sum_filter_pos_pos (L₁ ++ L₂) h2
      rw [sum_filter_pos (L₁ ++ L₂) hnn] at hA0 ⊢
      have hD : L₁.sum + C + L₂.sum - 100 = (L₁ ++ L₂).sum - (100 - C) := by
        rw [List.sum_append]; ring
      rw [hD]
      have hrange := scaled_share_range (L₁ ++ L₂) hnn (100 - C) (by linarith) (by linarith) hA0
      have hsum := scaled_share_sum (L₁ ++ L₂) (100 - C) hA0
      set e : ℚ → ℚ := fun x => x - ((L₁ ++ L₂).sum - (100 - C)) * (x / (L₁ ++ L₂).sum) with he
      have hG : ∀ l : List ℚ, (∀ x ∈ l, x ∈ L₁ ++ L₂) →
          l.map (normalizedShareQ ((L₁ ++ L₂).sum - (100 - C)) (L₁ ++ L₂).sum)
            = (l.map e).map toFixed2Q := by
        intro l hl
        rw [List.map_map]
        apply List.map_congr_left
        intro x hx
        have hx0 := hnn x (hl x hx)
        have hxr := hrange x (hl x hx)
        simp only [Function.comp, normalizedShareQ]
        by_cases hp : 0 < x
        · rw [if_pos hp, max_eq_right hxr.1]
        · have h0 : x = 0 := le_antisymm (not_lt.mp hp) hx0
          rw [if_neg hp, he, h0]
          simp [toFixed2Q_zero]
      rw [hG L₁ (fun x hx => by simp [hx]), hG L₂ (fun x hx => by simp [hx])]
      have hr1 : ∀ x ∈ L₁.map e, 0 ≤ x ∧ x ≤ 100 := by
        intro y hy
        obtain ⟨x, hx, rfl⟩ := List.mem_map.mp hy
        exact hrange x (by simp [hx])
      have hr2 : ∀ x ∈ L₂.map e, 0 ≤ x ∧ x ≤ 100 := by
        intro y hy
        obtain ⟨x, hx, rfl⟩ := List.mem_map.mp hy
        exact hrange x (by simp [hx])
      refine ⟨_, rfl, ?_, Or.inr ?_⟩
      · intro x hx
        rcases List.mem_append.mp hx with h | h
        · exact map_toFixed2Q_range _ hr1 x h
        · rcases List.mem_cons.mp h with rfl | h'
          · exact hC
          · exact map_toFixed2Q_range _ hr2 x h'
      · have e1 := map_toFixed2Q_sum _ hr1
        have e2 := map_toFixed2Q_sum _ hr2
        rw [List.map_append, List.sum_append] at hsum
        simp only [List.length_map] at e1 e2
        rw [List.sum_append, List.sum_cons]
        have h3 : ((L₁.map e).map toFixed2Q).sum + (C + ((L₂.map e).map toFixed2Q).sum) - 100
            = (((L₁.map e).map toFixed2Q).sum - (L₁.map e).sum)
              + (((L₂.map e).map toFixed2Q).sum - (L₂.map e).sum) := by
          linarith
        rw [h3]
        calc |((L₁.map e).map toFixed2Q).sum - (L₁.map e).sum
              + (((L₂.map e).map toFixed2Q).sum - (L₂.map e).sum)|
            ≤ |((L₁.map e).map toFixed2Q).sum - (L₁.map e).sum|
              + |((L₂.map e).map toFixed2Q).sum - (L₂.map e).sum| := abs_add _ _
          _ ≤ 5 / 1000 * L₁.length + 5 / 1000 * L₂.length := add_le_add e1 e2
          _ = 5 / 1000 * (L₁.length + L₂.length) := by ring

/-! ## The core of `adjustAllocations` on a group of numbers in [0,100] of sum 100 -/

/-- Before rounding, the shares the redistribution loop computes lie in [0,100] and sum to
`100 - nv`. -/
theorem redistributed_exact (l₁ l₂ : List ℚ) (a nv : ℚ)
    (hr : ∀ x ∈ l₁ ++ a :: l₂, 0 ≤ x ∧ x ≤ 100) (hs : l₁.sum + a + l₂.sum = 100)
    (hv0 : 0 ≤ nv) (hv1 : nv ≤ 100) :
    ∃ E : ℚ → ℚ,
      (∀ x ∈ l₁ ++ l₂, redistributedShareQ (l₁ ++ a :: l₂).length a nv x = toFixed2Q (E x) ∧
        0 ≤ E x ∧ E x ≤ 100) ∧
      (l₁ ++ l₂ ≠ [] → ((l₁ ++ l₂).map E).sum = 100 - nv) := by
  have ha := hr a (by simp)
  have hnn : ∀ x ∈ l₁ ++ l₂, 0 ≤ x := by
    intro x hx
    refine (hr x ?_).1
    rcases List.mem_append.mp hx with h | h
    · simp [h]
    · simp [h]
  have hso : (l₁ ++ l₂).sum = 100 - a := by
    rw [List.sum_append]; linarith
  have hlen : (((l₁ ++ a :: l₂).length : ℕ) : ℚ) - 1 = ((l₁ ++ l₂).length : ℚ) := by
    simp only [List.length_append, List.length_cons]
    push_cast
    ring
  by_cases hb : 100 - a ≤ 0
  · refine ⟨fun _ => (100 - nv) / ((l₁ ++ l₂).length : ℚ), ?_, ?_⟩
    · intro x hx
      have hpos : 0 < (l₁ ++ l₂).length := List.length_pos_of_mem hx
      have hposq : (1 : ℚ) ≤ ((l₁ ++ l₂).length : ℚ) := by exact_mod_cast hpos
      have h0 : 0 ≤ (100 - nv) / ((l₁ ++ l₂).length : ℚ) :=
        div_nonneg (by linarith) (by linarith)
      have h1 : (100 - nv) / ((l₁ ++ l₂).length : ℚ) ≤ 100 := by
        rw [div_le_iff₀ (by linarith)]
        nlinarith
      refine ⟨?_, h0, h1⟩
      simp only [redistributedShareQ, hb, if_true]
      rw [hlen, max_eq_right h0]
    · intro hne
      have hpos : 0 < (l₁ ++ l₂).length := List.length_pos_of_ne_nil hne
      have hposq : (0 : ℚ) < ((l₁ ++ l₂).length : ℚ) := by exact_mod_cast hpos
      rw [List.map_const', List.sum_replicate, nsmul_eq_mul, mul_div_assoc',
        mul_div_cancel_left₀ _ hposq.ne']
  · have hso0 : 0 < (l₁ ++ l₂).sum := by rw [hso]; exact not_le.mp hb
    have hrange := scaled_share_range (l₁ ++ l₂) hnn (100 - nv) (by linarith) (by linarith) hso0
    have hsum := scaled_share_sum (l₁ ++ l₂) (100 - nv) hso0
    have hd : (l₁ ++ l₂).sum - (100 - nv) = nv - a := by rw [hso]; ring
    rw [hd, hso] at hrange hsum
    refine ⟨fun x => x - (nv - a) * (x / (100 - a)), ?_, fun _ => hsum⟩
    intro x hx
    refine ⟨?_, hrange x hx⟩
    simp only [redistributedShareQ, hb, if_false]
    rw [max_eq_right (hrange x hx).1]

/-- On a group of numbers in [0,100] of sum 100, `adjustAllocations` returns numbers in
[0,100] and, when the group has another slice, of sum within 0.005 per slice of 100. -/
theorem adjust_core (l₁ l₂ : List ℚ) (a v : ℚ)
    (hr : ∀ x ∈ l₁ ++ a :: l₂, 0 ≤ x ∧ x ≤ 100) (hs : l₁.sum + a + l₂.sum = 100) :
    ∃ qs' : List ℚ,
      adjustAllocations ((l₁ ++ a :: l₂).map num) l₁.length (num v) = some (qs'.map num) ∧
      (∀ x ∈ qs', 0 ≤ x ∧ x ≤ 100) ∧
      (l₁ ++ l₂ ≠ [] → |qs'.sum - 100| ≤ 5 / 1000 * (l₁.length + l₂.length + 1)) := by
  rw [adjustAllocations_num]
  by_cases hd : |min 100 (max 0 v) - a| < 1 / 1000
  · rw [if_pos hd]
    refine ⟨_, rfl, hr, fun _ => ?_⟩
    rw [List.sum_append, List.sum_cons, ← add_assoc, hs]
    simp only [sub_self, abs_zero]
    positivity
  · rw [if_neg hd]
    obtain ⟨hv0, hv1⟩ := clamp_range v
    obtain ⟨E, hE, hEsum⟩ := redistributed_exact l₁ l₂ a (min 100 (max 0 v)) hr hs hv0 hv1
    set nv := min 100 (max 0 v) with hnv
    have hF : ∀ l : List ℚ, (∀ x ∈ l, x ∈ l₁ ++ l₂) →
        l.map (redistributedShareQ (l₁ ++ a :: l₂).length a nv) = (l.map E).map toFixed2Q := by
      intro l hl
      rw [List.map_map]
      exact List.map_congr_left (fun x hx => (hE x (hl x hx)).1)
    rw [hF l₁ (fun x hx => by simp [hx]), hF l₂ (fun x hx => by simp [hx])]
    have hr1 : ∀ x ∈ l₁.map E, 0 ≤ x ∧ x ≤ 100 := by
      intro y hy
      obtain ⟨x, hx, rfl⟩ := List.mem_map.mp hy
      exact (hE x (by simp [hx])).2
    have hr2 : ∀ x ∈ l₂.map E, 0 ≤ x ∧ x ≤ 100 := by
      intro y hy
      obtain ⟨x, hx, rfl⟩ := List.mem_map.mp hy
      exact (hE x (by simp [hx])).2
    have hC : 0 ≤ toFixed2Q nv ∧ toFixed2Q nv ≤ 100 :=
      ⟨toFixed2Q_nonneg hv0 hv1, toFixed2Q_le_hundred hv0 hv1⟩
    have hrange1 : ∀ x ∈ (l₁.map E).map toFixed2Q ++ toFixed2Q nv :: (l₂.map E).map toFixed2Q,
        0 ≤ x ∧ x ≤ 100 := by
      intro x hx
      rcases List.mem_append.mp hx with h | h
      · exact map_toFixed2Q_range _ hr1 x h
      · rcases List.mem_cons.mp h with rfl | h'
        · exact hC
        · exact map_toFixed2Q_range _ hr2 x h'
    obtain ⟨qs', hq, hqr, hqs⟩ := normalize_core ((l₁.map E).map toFixed2Q)
      ((l₂.map E).map toFixed2Q) (toFixed2Q nv) hrange1
    simp only [List.length_map] at hq hqs
    refine ⟨qs', by rw [hq], hqr, fun hne => ?_⟩
    rcases hqs with hqs | hqs
    · rw [hqs, List.sum_append, List.sum_cons]
      have e1 := map_toFixed2Q_sum _ hr1
      have e2 := map_toFixed2Q_sum _ hr2
      have e3 := toFixed2Q_error hv0 hv1
      have hEs := hEsum hne
      rw [List.map_append, List.sum_append] at hEs
      simp only [List.length_map] at e1 e2
      have h3 : ((l₁.map E).map toFixed2Q).sum + (toFixed2Q nv + ((l₂.map E).map toFixed2Q).sum)
            - 100
          = (((l₁.map E).map toFixed2Q).sum - (l₁.map E).sum)
            + (((l₂.map E).map toFixed2Q).sum - (l₂.map E).sum) + (toFixed2Q nv - nv) := by
        linarith
      rw [h3]
      calc |((l₁.map E).map toFixed2Q).sum - (l₁.map E).sum
              + (((l₂.map E).map toFixed2Q).sum - (l₂.map E).sum) + (toFixed2Q nv - nv)|
          ≤ |((l₁.map E).map toFixed2Q).sum - (l₁.map E).sum
              + (((l₂.map E).map toFixed2Q).sum - (l₂.map E).sum)| + |toFixed2Q nv - nv| :=
            abs_add _ _
        _ ≤ |((l₁.map E).map toFixed2Q).sum - (l₁.map E).sum|
              + |((l₂.map E).map toFixed2Q).sum - (l₂.map E).sum| + |toFixed2Q nv - nv| :=
            add_le_add_right (abs_add _ _) _
        _ ≤ 5 / 1000 * l₁.length + 5 / 1000 * l₂.length + 5 / 1000 :=
            add_le_add (add_le_add e1 e2) e3
        _ = 5 / 1000 * (l₁.length + l₂.length + 1) := by ring
    · calc |qs'.sum - 100| ≤ 5 / 1000 * (l₁.length + l₂.length) := hqs
        _ ≤ 5 / 1000 * (l₁.length + l₂.length + 1) := by linarith

/-! ## Shape of the result -/

theorem normalizeTo100_length (g : Group) (f : ℕ) : (normalizeTo100 g f).length = g.length := by
  rw [normalizeTo100_eq]
  split
  · rfl
  · split
    · rfl
    · exact mapIdxFrom_length _ _ _

theorem redistributed_length (g : Group) (i : ℕ) (nv old : JSNum) :
    (redistributed g i nv old).length = g.length := by
  unfold redistributed
  split <;> exact mapIdxFrom_length _ _ _

/-! ## Properties of the redistribution engine -/

/-- C10: on a group of numbers in [0,100] of sum 100, for every index in range and every
number `v`, `adjustAllocations(i, v)` returns a group of the same size all of whose
allocations are numbers in [0,100]. -/
theorem adjustAllocations_range (l₁ l₂ : List ℚ) (a v : ℚ)
    (hr : ∀ x ∈ l₁ ++ a :: l₂, 0 ≤ x ∧ x ≤ 100) (hs : (l₁ ++ a :: l₂).sum = 100) :
    ∃ qs' : List ℚ,
      adjustAllocations ((l₁ ++ a :: l₂).map num) l₁.length (num v) = some (qs'.map num) ∧
      qs'.length = (l₁ ++ a :: l₂).length ∧ ∀ x ∈ qs', 0 ≤ x ∧ x ≤ 100 := by
  have hs' : l₁.sum + a + l₂.sum = 100 := by
    rw [List.sum_append, List.sum_cons] at hs; linarith
  obtain ⟨qs', h1, h2, _⟩ := adjust_core l₁ l₂ a v hr hs'
  refine ⟨qs', h1, ?_, h2⟩
  rw [adjustAllocations_eq] at h1
  have hget : (List.map num (l₁ ++ a :: l₂))[l₁.length]? = some (num a) := by
    rw [List.map_append, List.map_cons]
    have := getElem?_length_append (l₁.map num) (l₂.map num) (num a)
    simpa using this
  rw [hget] at h1
  simp only [] at h1
  split at h1
  · have h := congrArg List.length (Option.some.inj h1)
    simpa using h.symm
  · have h := congrArg List.length (Option.some.inj h1)
    rw [normalizeTo100_length, List.length_set, redistributed_length] at h
    simpa using h.symm

theorem adjustAllocations_range_witness :
    ∃ qs' : List ℚ,
      adjustAllocations (([50] ++ (30 : ℚ) :: [20]).map num) [(50 : ℚ)].length (num 135)
        = some (qs'.map num) ∧
      qs'.length = ([50] ++ (30 : ℚ) :: [20]).length ∧ ∀ x ∈ qs', 0 ≤ x ∧ x ≤ 100 :=
  adjustAllocations_range [50] [20] 30 135
    (by
      intro x hx
      simp only [List.singleton_append, List.mem_cons, List.mem_singleton, List.not_mem_nil,
        or_false] at hx
      rcases hx with rfl | rfl | rfl <;> norm_num)
    (by norm_num)

/-- C5 at a failing input: on `[40.01, 20, 20, 20]` with index 0 fixed, `normalizeTo100`
re-rounds each corrected share back to 20.00 and the sum stays at 100.01. -/
theorem normalizeTo100_rounding_drift :
    normalizeTo100 ([(4001 / 100 : ℚ), 20, 20, 20].map num) 0
      = [(4001 / 100 : ℚ), 20, 20, 20].map num ∧
    ¬ |[(4001 / 100 : ℚ), 20, 20, 20].sum - 100| ≤ 5 / 1000 := by
  refine ⟨by decide!, ?_⟩
  norm_num [abs_of_pos]

/-- C8: on a group of numbers in [0,100] of sum 100 whose index `i` holds `a < 100`, with
`diff = clamp(v) - a` and `|diff| ≥ 0.001`, if `clamp(v)` and every
`x - diff * x / (100 - a)`, `x` a sibling other than `i`, are multiples of 0.01, then
`adjustAllocations(i, v)` leaves exactly `x - diff * x / (100 - a)` in each such sibling and
`clamp(v)` at index `i`; the new group sums to exactly 100 and the siblings keep their
relative proportions. -/
theorem adjustAllocations_proportional (l₁ l₂ : List ℚ) (a v : ℚ)
    (hr : ∀ x ∈ l₁ ++ a :: l₂, 0 ≤ x ∧ x ≤ 100) (hs : (l₁ ++ a :: l₂).sum = 100)
    (ha : a < 100) (hd : 1 / 1000 ≤ |min 100 (max 0 v) - a|)
    (hk : ∃ k : ℤ, min 100 (max 0 v) = k / 100)
    (hm : ∀ x ∈ l₁ ++ l₂, ∃ k : ℤ, x - (min 100 (max 0 v) - a) * x / (100 - a) = k / 100) :
    adjustAllocations ((l₁ ++ a :: l₂).map num) l₁.length (num v)
      = some ((l₁.map (fun x => x - (min 100 (max 0 v) - a) * x / (100 - a)) ++
          min 100 (max 0 v) ::
          l₂.map (fun x => x - (min 100 (max 0 v) - a) * x / (100 - a))).map num) ∧
    (l₁.map (fun x => x - (min 100 (max 0 v) - a) * x / (100 - a)) ++
          min 100 (max 0 v) ::
          l₂.map (fun x => x - (min 100 (max 0 v) - a) * x / (100 - a))).sum = 100 ∧
    ∀ x ∈ l₁ ++ l₂, ∀ y ∈ l₁ ++ l₂,
      (x - (min 100 (max 0 v) - a) * x / (100 - a)) * y
        = (y - (min 100 (max 0 v) - a) * y / (100 - a)) * x := by
  obtain ⟨hv0, hv1⟩ := clamp_range v
  set nv := min 100 (max 0 v) with hnv
  have hs' : l₁.sum + a + l₂.sum = 100 := by
    rw [List.sum_append, List.sum_cons] at hs; linarith
  have hnn : ∀ x ∈ l₁ ++ l₂, 0 ≤ x := by
    intro x hx
    refine (hr x ?_).1
    rcases List.mem_append.mp hx with h | h
    · simp [h]
    · simp [h]
  have hso : (l₁ ++ l₂).sum = 100 - a := by
    rw [List.sum_append]; linarith
  have hso0 : 0 < (l₁ ++ l₂).sum := by rw [hso]; linarith
  have hb : ¬ (100 - a ≤ 0) := by linarith
  have hrange := scaled_share_range (l₁ ++ l₂) hnn (100 - nv) (by linarith) (by linarith) hso0
  have hsum := scaled_share_sum (l₁ ++ l₂) (100 - nv) hso0
  have hdd : (l₁ ++ l₂).sum - (100 - nv) = nv - a := by rw [hso]; ring
  rw [hdd, hso] at hrange hsum
  have he : (fun x : ℚ => x - (nv - a) * (x / (100 - a)))
      = fun x => x - (nv - a) * x / (100 - a) := by
    funext x
    rw [mul_div_assoc]
  rw [he] at hsum
  have hF : ∀ l : List ℚ, (∀ x ∈ l, x ∈ l₁ ++ l₂) →
      l.map (redistributedShareQ (l₁ ++ a :: l₂).length a nv)
        = l.map (fun x => x - (nv - a) * x / (100 - a)) := by
    intro l hl
    apply List.map_congr_left
    intro x hx
    have hx' := hrange x (hl x hx)
    obtain ⟨k, hk'⟩ := hm x (hl x hx)
    simp only [redistributedShareQ, hb, if_false]
    rw [max_eq_right hx'.1, mul_div_assoc] at *
    rw [hk'] at hx' ⊢
    exact toFixed2Q_of_int k hx'.1 hx'.2
  have hC : toFixed2Q nv = nv := by
    obtain ⟨k, hk'⟩ := hk
    rw [hk'] at hv0 hv1 ⊢
    exact toFixed2Q_of_int k hv0 hv1
  have htotal : (l₁.map (fun x => x - (nv - a) * x / (100 - a)) ++ nv ::
      l₂.map (fun x => x - (nv - a) * x / (100 - a))).sum = 100 := by
    rw [List.map_append, List.sum_append] at hsum
    rw [List.sum_append, List.sum_cons]
    linarith
  refine ⟨?_, htotal, ?_⟩
  · rw [adjustAllocations_num, if_neg (not_lt.mpr hd), hF l₁ (fun x hx => by simp [hx]),
      hF l₂ (fun x hx => by simp [hx]), hC]
    have hN := normalizeTo100_num (l₁.map (fun x => x - (nv - a) * x / (100 - a)))
      (l₂.map (fun x => x - (nv - a) * x / (100 - a))) nv
    rw [List.length_map] at hN
    rw [hN]
    rw [List.sum_append, List.sum_cons, ← add_assoc] at htotal
    rw [if_pos (by rw [htotal]; norm_num)]
  · intro x _ y _
    ring

theorem adjustAllocations_proportional_witness :
    adjustAllocations (([] ++ (50 : ℚ) :: [30, 20]).map num) ([] : List ℚ).length (num 60)
      = some ((([] : List ℚ).map (fun x => x - (min 100 (max 0 60) - 50) * x / (100 - 50)) ++
          min 100 (max 0 60) ::
          [(30 : ℚ), 20].map (fun x => x - (min 100 (max 0 60) - 50) * x / (100 - 50))).map num) ∧
    (([] : List ℚ).map (fun x => x - (min 100 (max 0 60) - 50) * x / (100 - 50)) ++
          min 100 (max 0 60) ::
          [(30 : ℚ), 20].map (fun x => x - (min 100 (max 0 60) - 50) * x / (100 - 50))).sum = 100 ∧
    ∀ x ∈ [] ++ [(30 : ℚ), 20], ∀ y ∈ [] ++ [(30 : ℚ), 20],
      (x - (min 100 (max 0 60) - 50) * x / (100 - 50)) * y
        = (y - (min 100 (max 0 60) - 50) * y / (100 - 50)) * x :=
  adjustAllocations_proportional [] [30, 20] 50 60
    (by
      intro x hx
      simp only [List.nil_append, List.mem_cons, List.mem_singleton, List.not_mem_nil,
        or_false] at hx
      rcases hx with rfl | rfl | rfl <;> norm_num)
    (by norm_num) (by norm_num) (by norm_num [abs_of_pos]) ⟨6000, by norm_num⟩
    (by
      intro x hx
      simp only [List.nil_append, List.mem_cons, List.mem_singleton, List.not_mem_nil,
        or_false] at hx
      rcases hx with rfl | rfl
      · exact ⟨2400, by norm_num⟩
      · exact ⟨1600, by norm_num⟩)

end Budget
